import Mathlib

/-!
# SymbolTable: a fixed 256-bucket chained hash table of names

Shallow embedding of `src/SymbolTable.cpp`.

Modelling conventions.

* A C string is the list of its bytes before the terminating NUL (`CString`); a `char` is a
  natural number below 256.
* `size_t` is 64 bits wide: every update of a `size_t` variable is reduced modulo `2 ^ 64`.
  `char` is signed (as on x86-64), so a byte of 128 or more is sign-extended when it is converted
  to `size_t`.
* `int` is 32 bits wide. The lookup counters `number_probes` and `number_hits` grow by one per
  call of `getSymbol` without bound on the number of calls, so their `++` is modelled with its
  overflow (`int_increment`): from `INT_MAX` the counter goes to `INT_MIN`, the two's-complement
  wraparound the compiled program shows. `number_entries` and `chainLength` count nodes that are
  live on the heap at one time; they stay far below `INT_MAX` and are unbounded integers.
* A chain (`SymbolTableEntry *` followed through `next`) is the list of its nodes, head first.
  A pointer to a node is represented by the chain from that node on: the node itself followed by
  everything reachable through `next`. `nullptr` is the empty list. Two pointers into one chain
  are equal exactly when they point to the same node.
* A member that was never written since `new SymbolTableEntry` is indeterminate: `none` for
  `entry_type`, `f_union.indeterminate` for the union `f`.
* The member `SymbolTable::next` is set to `nullptr` by the constructor and never read or written
  again; it is left out of the state.
* `printSymbolStats` returns the five values it prints. The average is a `double` division; it is
  kept as its two operands (`DoubleQuotient`) and no floating-point value is computed.
* A write or read by the caller through an entry pointer (`SymbolTable.write`,
  `SymbolTable.deref`) goes to the node in the bucket of the pointed-to name that has as many
  nodes behind it as the pointer records.
-/

namespace SymbolTableModel

set_option maxRecDepth 8000

/-- The enum `j_type`. -/
inductive j_type where
  | type_integer
  | type_string
  | type_boolean
  | type_float
  | type_none
  deriving DecidableEq, Repr

/-- The enum `ste_entry_type`. -/
inductive ste_entry_type where
  | ste_var
  | ste_const
  | ste_routine
  | ste_undefined
  deriving DecidableEq, Repr

/-- The anonymous union `f` of `SymbolTableEntry`: the member written last, if any. -/
inductive f_union where
  | indeterminate
  | var (type : j_type)
  | constant (value : Int)
  | routine (result_type : j_type)
  deriving DecidableEq, Repr

/-- Bytes of a NUL-terminated string, terminator excluded. -/
abbrev CString := List Nat

/-- A list of numbers is a C string when every element is a non-zero byte. -/
def IsCString (s : CString) : Prop := ∀ c ∈ s, 0 < c ∧ c < 256

instance (s : CString) : Decidable (IsCString s) := by
  unfold IsCString; infer_instance

/-- The bytes of a string literal (code points of an ASCII literal are its bytes). -/
def cstr (s : String) : CString := s.toList.map Char.toNat

/-- The struct `SymbolTableEntry`; the `next` pointer is the tail of the chain holding it. -/
structure SymbolTableEntry where
  name : CString
  entry_type : Option ste_entry_type
  f : f_union
  deriving DecidableEq, Repr

/-- A chain of entries linked through `next`; also a pointer to its first node. -/
abbrev Chain := List SymbolTableEntry

/-- The class `SymbolTable` (data members). -/
structure SymbolTable where
  slots : Mathlib.Vector Chain 256
  fold_case : Int
  number_entries : Int
  number_probes : Int
  number_hits : Int
  max_search_dist : Int
  deriving DecidableEq

/-- Library `tolower` in the "C" locale. -/
def tolower (c : Nat) : Nat := if 65 ≤ c ∧ c ≤ 90 then c + 32 else c

/-- Number of values of `size_t`. -/
def SIZE_T_MOD : Nat := 2 ^ 64

/-- Conversion of a (signed) `char` to `size_t`. -/
def charToSizeT (c : Nat) : Nat := if c < 128 then c else SIZE_T_MOD - 256 + c

/-- Library `strcmp`: sign of the first differing byte pair, 0 when the strings are equal. -/
def strcmp : CString → CString → Int
  | [], [] => 0
  | [], _ :: _ => -1
  | _ :: _, [] => 1
  | a :: as, b :: bs => if a = b then strcmp as bs else if a < b then -1 else 1

/-- Largest value of `int`. -/
def INT_MAX : Int := 2147483647

/-- Smallest value of `int`. -/
def INT_MIN : Int := -2147483648

/-- The operator `++` on an `int` counter: one more, and from `INT_MAX` round to `INT_MIN`. -/
def int_increment (x : Int) : Int := if x = INT_MAX then INT_MIN else x + 1

/-- The `while (*str)` loop of `SymbolTable::hash`, from accumulator `hashValue`. -/
def hash_loop (fold_case : Int) : Nat → CString → Nat
  | hashValue, [] => hashValue
  | hashValue, c :: str =>
    let c := if fold_case ≠ 0 then tolower c else c
    hash_loop fold_case ((hashValue * 31 + charToSizeT c) % SIZE_T_MOD) str

/-- `SymbolTable::SymbolTable(int fold_case_flag)`. -/
def SymbolTable.construct (fold_case_flag : Int) : SymbolTable :=
  { slots := Mathlib.Vector.replicate 256 []
    fold_case := fold_case_flag
    number_entries := 0
    number_probes := 0
    number_hits := 0
    max_search_dist := 0 }

/-- `SymbolTable::hash`: the returned `size_t`, which is below 256. -/
def SymbolTable.hash (t : SymbolTable) (str : CString) : Fin 256 :=
  ⟨hash_loop t.fold_case 0 str % 256, Nat.mod_lt _ (by decide)⟩

/-- The inner `while (entry)` loop of `clearSymbolTable`: frees each node; ends at `nullptr`. -/
def clear_chain : Chain → Chain
  | [] => []
  | _entry :: nextEntry => clear_chain nextEntry

/-- `SymbolTable::clearSymbolTable`. -/
def SymbolTable.clearSymbolTable (t : SymbolTable) : SymbolTable :=
  { t with
    slots := t.slots.map (fun entry => clear_chain entry)
    number_entries := 0 }

/-- The `while (entry)` loop of `getSymbol`, run on the table `t` with `number_probes` already
incremented: returns the pointer returned by `getSymbol` and the final table. -/
def getSymbol_loop (t : SymbolTable) (str : CString) : Chain → Chain × SymbolTable
  | [] => ([], t)
  | entry :: next =>
    if strcmp entry.name str = 0 then
      (entry :: next, { t with number_hits := int_increment t.number_hits })
    else getSymbol_loop t str next

/-- `SymbolTable::getSymbol`: returned pointer and table afterwards. -/
def SymbolTable.getSymbol (t : SymbolTable) (str : CString) : Chain × SymbolTable :=
  let index := t.hash str
  let entry := t.slots.get index
  getSymbol_loop { t with number_probes := int_increment t.number_probes } str entry

/-- The `while (entry)` loop of `putSymbol`: the pointer at which the loop returns, or `nullptr`
when the loop runs off the end of the chain. -/
def putSymbol_loop (str : CString) : Chain → Chain
  | [] => []
  | entry :: next =>
    if strcmp entry.name str = 0 then entry :: next else putSymbol_loop str next

/-- `SymbolTable::putSymbol`: returned pointer and table afterwards. -/
def SymbolTable.putSymbol (t : SymbolTable) (str : CString) : Chain × SymbolTable :=
  let index := t.hash str
  match putSymbol_loop str (t.slots.get index) with
  | entry :: next => (entry :: next, t)
  | [] =>
    let newEntry : SymbolTableEntry := { name := str, entry_type := none, f := .indeterminate }
    let chain := newEntry :: t.slots.get index
    (chain, { t with slots := t.slots.set index chain
                     number_entries := t.number_entries + 1 })

/-- The operations a caller can perform on a constructed table. -/
inductive Op where
  | putSymbol (str : CString)
  | getSymbol (str : CString)
  | clearSymbolTable
  deriving DecidableEq, Repr

/-- Table after one operation (the returned pointer is dropped). -/
def SymbolTable.step (t : SymbolTable) : Op → SymbolTable
  | .putSymbol str => (t.putSymbol str).2
  | .getSymbol str => (t.getSymbol str).2
  | .clearSymbolTable => t.clearSymbolTable

/-- Table after a sequence of operations, first operation first. -/
def SymbolTable.run (t : SymbolTable) (ops : List Op) : SymbolTable :=
  ops.foldl SymbolTable.step t

/-- The character the hash loop adds: lower-cased when `fold_case` is set. -/
def hash_char (fold_case : Int) (c : Nat) : Nat := if fold_case ≠ 0 then tolower c else c

/-- The hash as the specification words it: the sum over `i` of `c_i * 31 ^ (n - 1 - i)`, taken
over unbounded integers, where `c_i` is the byte at position `i` (lower-cased under folding) and
`n` the length of the name, reduced modulo 256. -/
def hash_spec (fold_case : Int) (name : CString) : Nat :=
  ((List.range name.length).map fun i =>
    hash_char fold_case (name.getD i 0) * 31 ^ (name.length - 1 - i)).sum % 256

/-- The same sum by recursion on the name (Horner form unfolded): the first byte weighs
`31 ^ (length of the rest)`. Used to relate `hash_spec` to the loop. -/
def hash_poly (fold_case : Int) : CString → Nat
  | [] => 0
  | c :: str => hash_char fold_case c * 31 ^ str.length + hash_poly fold_case str

/-- Total number of entries on the 256 chains. -/
def SymbolTable.total_entries (t : SymbolTable) : Nat :=
  (t.slots.toList.map List.length).sum

/-- The operands of a floating-point division `static_cast<double>(dividend) / divisor`; the
quotient itself is not computed in the model. -/
structure DoubleQuotient where
  dividend : Int
  divisor : Int
  deriving DecidableEq, Repr

/-- The five values `printSymbolStats` writes to `std::cout`, in the order it writes them. -/
structure SymbolStats where
  number_entries : Int
  emptySlots : Int
  average_probes : DoubleQuotient
  number_hits : Int
  longestSearchChain : Int
  deriving DecidableEq, Repr

/-- The inner `while (entry)` loop of `printSymbolStats`: `chainLength` after the walk. -/
def chainLength_loop : Int → Chain → Int
  | chainLength, [] => chainLength
  | chainLength, _entry :: next => chainLength_loop (chainLength + 1) next

/-- One iteration of the `for` loop of `printSymbolStats` on the pair
`(emptySlots, longestSearchChain)`, for the bucket whose chain head is `entry`. -/
def printSymbolStats_step (acc : Int × Int) (entry : Chain) : Int × Int :=
  match entry with
  | [] => (acc.1 + 1, acc.2)
  | _ :: _ =>
    let chainLength := chainLength_loop 0 entry
    if chainLength > acc.2 then (acc.1, chainLength) else acc

/-- `SymbolTable::printSymbolStats`: the values printed and the table afterwards. -/
def SymbolTable.printSymbolStats (t : SymbolTable) : SymbolStats × SymbolTable :=
  let acc := t.slots.toList.foldl printSymbolStats_step (0, 0)
  ({ number_entries := t.number_entries
     emptySlots := acc.1
     average_probes := ⟨t.number_probes, t.number_entries⟩
     number_hits := t.number_hits
     longestSearchChain := acc.2 }, t)

/-- A chain after a write through the pointer `ptr` into one of its nodes: the node with as
many nodes behind it as `ptr` has is replaced by its image under `g`. -/
def write_chain (g : SymbolTableEntry → SymbolTableEntry) (ptr : Chain) : Chain → Chain
  | [] => []
  | e :: next =>
    if (e :: next).length = ptr.length then g e :: next else e :: write_chain g ptr next

/-- The node of a chain that the pointer `ptr` points to, as it is now. -/
def deref_chain (ptr : Chain) : Chain → Option SymbolTableEntry
  | [] => none
  | e :: next => if (e :: next).length = ptr.length then some e else deref_chain ptr next

/-- A write by the caller through an entry pointer obtained from the table
(`entry->member = value`). The node is the one in the bucket of the name, at the distance from
the end of the chain that the pointer records; nodes never move and names never change, so this
identifies the node for as long as the table is not cleared. -/
def SymbolTable.write (t : SymbolTable) (ptr : Chain)
    (g : SymbolTableEntry → SymbolTableEntry) : SymbolTable :=
  match ptr with
  | [] => t
  | e :: _ =>
    { t with slots := t.slots.set (t.hash e.name) (write_chain g ptr (t.slots.get (t.hash e.name))) }

/-- A read by the caller through an entry pointer: the pointed-to node in the current table. -/
def SymbolTable.deref (t : SymbolTable) (ptr : Chain) : Option SymbolTableEntry :=
  match ptr with
  | [] => none
  | e :: _ => deref_chain ptr (t.slots.get (t.hash e.name))

/-- What `main` leaves behind: the table, the pointers `entry3` and `entry4`, the two lines
"Found entry: name" (`some name`) or "Entry not found." (`none`), and the statistics printed. -/
structure MainResult where
  table : SymbolTable
  entry3 : Chain
  entry4 : Chain
  line3 : Option CString
  line4 : Option CString
  stats : SymbolStats

/-- The function `main`. -/
def main : MainResult :=
  let table := SymbolTable.construct 1
  let r1 := table.putSymbol (cstr "apple")
  let r2 := r1.2.putSymbol (cstr "banana")
  let r3 := r2.2.getSymbol (cstr "apple")
  let r4 := r3.2.getSymbol (cstr "orange")
  let entry1 := r1.1
  let entry2 := r2.1
  let entry3 := r3.1
  let entry4 := r4.1
  let table := r4.2
  let table :=
    if entry1 ≠ [] then
      (table.write entry1 fun e => { e with entry_type := some .ste_var }).write entry1
        fun e => { e with f := .var .type_string }
    else table
  let table :=
    if entry2 ≠ [] then
      (table.write entry2 fun e => { e with entry_type := some .ste_const }).write entry2
        fun e => { e with f := .constant 42 }
    else table
  let line3 := (table.deref entry3).map SymbolTableEntry.name
  let line4 := (table.deref entry4).map SymbolTableEntry.name
  let r5 := table.printSymbolStats
  { table := r5.2, entry3 := entry3, entry4 := entry4, line3 := line3, line4 := line4,
    stats := r5.1 }

/-- The calls of `main` with each entry classified right after its insertion, before the
lookups: the order in which the end-to-end scenario is told. -/
def main_classified_first : MainResult :=
  let table := SymbolTable.construct 1
  let r1 := table.putSymbol (cstr "apple")
  let table :=
    (r1.2.write r1.1 fun e => { e with entry_type := some .ste_var }).write r1.1
      fun e => { e with f := .var .type_string }
  let r2 := table.putSymbol (cstr "banana")
  let table :=
    (r2.2.write r2.1 fun e => { e with entry_type := some .ste_const }).write r2.1
      fun e => { e with f := .constant 42 }
  let r3 := table.getSymbol (cstr "apple")
  let r4 := r3.2.getSymbol (cstr "orange")
  let r5 := r4.2.printSymbolStats
  { table := r5.2, entry3 := r3.1, entry4 := r4.1
    line3 := (r4.2.deref r3.1).map SymbolTableEntry.name
    line4 := (r4.2.deref r4.1).map SymbolTableEntry.name
    stats := r5.1 }

/-- Both table invariants: every entry sits in the bucket its name hashes to, and within a
chain no two entries have byte-identical names. -/
def SymbolTable.Inv (t : SymbolTable) : Prop :=
  (∀ i : Fin 256, ∀ e ∈ t.slots.get i, t.hash e.name = i) ∧
  (∀ i : Fin 256, ((t.slots.get i).map SymbolTableEntry.name).Nodup)

/-! ## Auxiliary lemmas -/

theorem strcmp_eq_zero_iff (a b : CString) : strcmp a b = 0 ↔ a = b := by
  induction a generalizing b with
  | nil => cases b <;> simp [strcmp]
  | cons x xs ih =>
    cases b with
    | nil => simp [strcmp]
    | cons y ys =>
      simp only [strcmp]
      by_cases hxy : x = y
      · simp [hxy, ih]
      · by_cases hlt : x < y <;> simp [hxy, hlt]

theorem putSymbol_loop_eq_nil_iff (str : CString) (c : Chain) :
    putSymbol_loop str c = [] ↔ ∀ e ∈ c, e.name ≠ str := by
  induction c with
  | nil => simp [putSymbol_loop]
  | cons e rest ih =>
    by_cases h : e.name = str
    · simp [putSymbol_loop, strcmp_eq_zero_iff, h]
    · simp [putSymbol_loop, strcmp_eq_zero_iff, h, ih]

theorem putSymbol_loop_append (str : CString) (pre : Chain) (e : SymbolTableEntry) (post : Chain)
    (hpre : ∀ x ∈ pre, x.name ≠ str) (he : e.name = str) :
    putSymbol_loop str (pre ++ e :: post) = e :: post := by
  induction pre with
  | nil => simp [putSymbol_loop, strcmp_eq_zero_iff, he]
  | cons x xs ih =>
    have hx : x.name ≠ str := hpre x (by simp)
    have hxs : ∀ y ∈ xs, y.name ≠ str := fun y hy => hpre y (by simp [hy])
    simp [putSymbol_loop, strcmp_eq_zero_iff, hx, ih hxs]

theorem putSymbol_loop_cons (str : CString) (c : Chain) (e : SymbolTableEntry) (rest : Chain)
    (h : putSymbol_loop str c = e :: rest) :
    e.name = str ∧ ∃ pre, c = pre ++ e :: rest ∧ ∀ x ∈ pre, x.name ≠ str := by
  induction c with
  | nil => simp [putSymbol_loop] at h
  | cons x xs ih =>
    by_cases hx : x.name = str
    · simp only [putSymbol_loop, strcmp_eq_zero_iff, hx, if_true] at h
      obtain ⟨rfl, rfl⟩ := List.cons.inj h
      exact ⟨hx, [], by simp, by simp⟩
    · simp only [putSymbol_loop, strcmp_eq_zero_iff, hx, if_false] at h
      obtain ⟨hn, pre, hpre, hall⟩ := ih h
      refine ⟨hn, x :: pre, by simp [hpre], ?_⟩
      intro y hy
      rcases List.mem_cons.mp hy with rfl | hy
      · exact hx
      · exact hall y hy

theorem getSymbol_loop_eq (t : SymbolTable) (str : CString) (c : Chain) :
    getSymbol_loop t str c =
      (putSymbol_loop str c,
        if putSymbol_loop str c = [] then t
        else { t with number_hits := int_increment t.number_hits }) := by
  induction c with
  | nil => simp [getSymbol_loop, putSymbol_loop]
  | cons e rest ih =>
    by_cases h : strcmp e.name str = 0
    · simp [getSymbol_loop, putSymbol_loop, h]
    · simp [getSymbol_loop, putSymbol_loop, h, ih]

theorem getSymbol_fst (t : SymbolTable) (str : CString) :
    (t.getSymbol str).1 = putSymbol_loop str (t.slots.get (t.hash str)) := by
  simp [SymbolTable.getSymbol, getSymbol_loop_eq]

theorem getSymbol_snd (t : SymbolTable) (str : CString) :
    (t.getSymbol str).2 =
      if putSymbol_loop str (t.slots.get (t.hash str)) = [] then
        { t with number_probes := int_increment t.number_probes }
      else { t with number_probes := int_increment t.number_probes
                    number_hits := int_increment t.number_hits } := by
  simp only [SymbolTable.getSymbol, getSymbol_loop_eq]

theorem getSymbol_slots (t : SymbolTable) (str : CString) :
    (t.getSymbol str).2.slots = t.slots := by
  rw [getSymbol_snd]; split_ifs <;> rfl

theorem getSymbol_fold_case (t : SymbolTable) (str : CString) :
    (t.getSymbol str).2.fold_case = t.fold_case := by
  rw [getSymbol_snd]; split_ifs <;> rfl

theorem putSymbol_fold_case (t : SymbolTable) (str : CString) :
    (t.putSymbol str).2.fold_case = t.fold_case := by
  unfold SymbolTable.putSymbol
  dsimp only
  cases putSymbol_loop str (t.slots.get (t.hash str)) <;> rfl

theorem hash_congr (t u : SymbolTable) (h : t.fold_case = u.fold_case) (str : CString) :
    t.hash str = u.hash str := by
  simp [SymbolTable.hash, h]

theorem clear_chain_eq_nil (c : Chain) : clear_chain c = [] := by
  induction c with
  | nil => rfl
  | cons e rest ih => simpa [clear_chain] using ih

theorem clearSymbolTable_get (t : SymbolTable) (i : Fin 256) :
    t.clearSymbolTable.slots.get i = [] := by
  simp [SymbolTable.clearSymbolTable, clear_chain_eq_nil]

theorem construct_get (flag : Int) (i : Fin 256) :
    (SymbolTable.construct flag).slots.get i = [] := by
  simp only [SymbolTable.construct, Mathlib.Vector.get_replicate]

/-- Effect of `putSymbol` on the chains when the name is not on its bucket's chain. -/
theorem putSymbol_new (t : SymbolTable) (str : CString)
    (h : putSymbol_loop str (t.slots.get (t.hash str)) = []) :
    t.putSymbol str =
      (⟨str, none, .indeterminate⟩ :: t.slots.get (t.hash str),
        { t with
          slots := t.slots.set (t.hash str) (⟨str, none, .indeterminate⟩ :: t.slots.get (t.hash str))
          number_entries := t.number_entries + 1 }) := by
  unfold SymbolTable.putSymbol
  simp only [h]

/-- Effect of `putSymbol` when the name is already on its bucket's chain. -/
theorem putSymbol_old (t : SymbolTable) (str : CString)
    (h : putSymbol_loop str (t.slots.get (t.hash str)) ≠ []) :
    t.putSymbol str = (putSymbol_loop str (t.slots.get (t.hash str)), t) := by
  unfold SymbolTable.putSymbol
  dsimp only
  generalize putSymbol_loop str (t.slots.get (t.hash str)) = r at h
  cases r with
  | nil => exact absurd rfl h
  | cons e rest => rfl

theorem Inv_construct (flag : Int) : (SymbolTable.construct flag).Inv := by
  constructor
  · intro i e he
    rw [construct_get] at he
    simp at he
  · intro i
    rw [construct_get]
    simp

theorem Inv_clearSymbolTable (t : SymbolTable) : t.clearSymbolTable.Inv := by
  constructor
  · intro i e he
    rw [clearSymbolTable_get] at he
    simp at he
  · intro i
    rw [clearSymbolTable_get]
    simp

theorem Inv_getSymbol (t : SymbolTable) (str : CString) (h : t.Inv) :
    (t.getSymbol str).2.Inv := by
  obtain ⟨hb, hn⟩ := h
  constructor
  · intro i e he
    rw [getSymbol_slots] at he
    rw [hash_congr _ t (getSymbol_fold_case t str)]
    exact hb i e he
  · intro i
    rw [getSymbol_slots]
    exact hn i

theorem Inv_putSymbol (t : SymbolTable) (str : CString) (h : t.Inv) :
    (t.putSymbol str).2.Inv := by
  obtain ⟨hb, hn⟩ := h
  by_cases hl : putSymbol_loop str (t.slots.get (t.hash str)) = []
  · rw [putSymbol_new t str hl]
    have habs := (putSymbol_loop_eq_nil_iff str _).mp hl
    constructor
    · intro i e he
      show t.hash e.name = i
      by_cases hi : t.hash str = i
      · subst hi
        simp only [Mathlib.Vector.get_set_same] at he
        rcases List.mem_cons.mp he with rfl | he
        · rfl
        · exact hb _ e he
      · simp only [Mathlib.Vector.get_set_of_ne hi] at he
        exact hb i e he
    · intro i
      by_cases hi : t.hash str = i
      · subst hi
        simp only [Mathlib.Vector.get_set_same, List.map_cons, List.nodup_cons]
        refine ⟨?_, hn _⟩
        intro hmem
        obtain ⟨e, he, hname⟩ := List.mem_map.mp hmem
        exact habs e he hname
      · simp only [Mathlib.Vector.get_set_of_ne hi]
        exact hn i
  · rw [putSymbol_old t str hl]
    exact ⟨hb, hn⟩

theorem Inv_step (t : SymbolTable) (op : Op) (h : t.Inv) : (t.step op).Inv := by
  cases op with
  | putSymbol str => exact Inv_putSymbol t str h
  | getSymbol str => exact Inv_getSymbol t str h
  | clearSymbolTable => exact Inv_clearSymbolTable t

theorem Inv_run (t : SymbolTable) (ops : List Op) (h : t.Inv) : (t.run ops).Inv := by
  induction ops generalizing t with
  | nil => exact h
  | cons op ops ih => exact ih (t.step op) (Inv_step t op h)

theorem step_fold_case (t : SymbolTable) (op : Op) : (t.step op).fold_case = t.fold_case := by
  cases op with
  | putSymbol str => exact putSymbol_fold_case t str
  | getSymbol str => exact getSymbol_fold_case t str
  | clearSymbolTable => rfl

theorem run_fold_case (t : SymbolTable) (ops : List Op) : (t.run ops).fold_case = t.fold_case := by
  induction ops generalizing t with
  | nil => rfl
  | cons op ops ih => exact (ih (t.step op)).trans (step_fold_case t op)

/-- In a table satisfying the invariants, a lookup of the name of any node of the table ends at
exactly that node. -/
theorem lookup_of_node (t : SymbolTable) (h : t.Inv) (i : Fin 256) (pre : Chain)
    (e : SymbolTableEntry) (post : Chain) (hc : t.slots.get i = pre ++ e :: post) :
    putSymbol_loop e.name (t.slots.get (t.hash e.name)) = e :: post := by
  obtain ⟨hb, hn⟩ := h
  have hi : t.hash e.name = i := hb i e (by rw [hc]; simp)
  rw [hi, hc]
  apply putSymbol_loop_append _ _ _ _ _ rfl
  intro x hx hname
  have hnd := hn i
  rw [hc, List.map_append, List.map_cons] at hnd
  have := (List.nodup_append.mp hnd).2.2
  exact this (List.mem_map.mpr ⟨x, hx, hname⟩) (by simp)

/-- After `putSymbol str`, walking the bucket of `str` for `str` ends at the node that
`putSymbol` returned. -/
theorem lookup_after_putSymbol (t : SymbolTable) (str : CString) :
    putSymbol_loop str ((t.putSymbol str).2.slots.get ((t.putSymbol str).2.hash str)) =
      (t.putSymbol str).1 := by
  rw [hash_congr _ t (putSymbol_fold_case t str)]
  by_cases hl : putSymbol_loop str (t.slots.get (t.hash str)) = []
  · rw [putSymbol_new t str hl]
    simp only [Mathlib.Vector.get_set_same]
    simp [putSymbol_loop, strcmp_eq_zero_iff]
  · rw [putSymbol_old t str hl]

/-- A name is borne by no entry of the table when a scan of all chains finds none. -/
theorem absent_of_scan (t : SymbolTable) (s : CString)
    (h : (t.slots.toList.all fun c => c.all fun e => decide (e.name ≠ s)) = true) :
    ∀ i : Fin 256, ∀ e ∈ t.slots.get i, e.name ≠ s := by
  intro i e he
  have hc : t.slots.get i ∈ t.slots.toList := Mathlib.Vector.get_mem i t.slots
  have := List.all_eq_true.mp h _ hc
  simpa using List.all_eq_true.mp this e he

/-- Chains after a `putSymbol` that creates an entry: the new node heads the bucket of its name,
all other buckets are as before. -/
theorem putSymbol_slots_new (t : SymbolTable) (s : CString)
    (h : ∀ e ∈ t.slots.get (t.hash s), e.name ≠ s) (j : Fin 256) :
    (t.putSymbol s).2.slots.get j =
      if t.hash s = j then ⟨s, none, .indeterminate⟩ :: t.slots.get j else t.slots.get j := by
  rw [putSymbol_new t s ((putSymbol_loop_eq_nil_iff s _).mpr h)]
  simp only [Mathlib.Vector.get_set_eq_if]
  split_ifs with hj
  · rw [hj]
  · rfl

/-- Inserting pairwise distinct names, none of them on the chain it hashes to, prepends them to
their chains one by one: each chain ends up with its new names latest first, then its old
content. -/
theorem run_putSymbol_slots (t : SymbolTable) (names : List CString) (hnd : names.Nodup)
    (habs : ∀ n ∈ names, ∀ e ∈ t.slots.get (t.hash n), e.name ≠ n) (i : Fin 256) :
    (t.run (names.map Op.putSymbol)).slots.get i =
      ((names.filter fun n => decide (t.hash n = i)).reverse.map
        fun n => (⟨n, none, .indeterminate⟩ : SymbolTableEntry)) ++ t.slots.get i := by
  induction names generalizing t with
  | nil => simp [SymbolTable.run]
  | cons n rest ih =>
    obtain ⟨hn, hrest⟩ := List.nodup_cons.mp hnd
    have hnabs := habs n (List.mem_cons_self _ _)
    have hhash : ∀ m, (t.putSymbol n).2.hash m = t.hash m :=
      fun m => hash_congr _ t (putSymbol_fold_case t n) m
    have habs2 : ∀ m ∈ rest, ∀ e ∈ (t.putSymbol n).2.slots.get ((t.putSymbol n).2.hash m),
        e.name ≠ m := by
      intro m hm e he
      rw [hhash, putSymbol_slots_new t n hnabs] at he
      have hold := habs m (List.mem_cons_of_mem _ hm) e
      split_ifs at he
      · rcases List.mem_cons.mp he with rfl | he
        · intro hnm
          have hnm2 : n = m := hnm
          exact hn (hnm2 ▸ hm)
        · exact hold he
      · exact hold he
    have := ih (t.putSymbol n).2 hrest habs2
    simp only [List.map_cons, SymbolTable.run, List.foldl_cons, SymbolTable.step] at this ⊢
    rw [this, putSymbol_slots_new t n hnabs]
    simp only [hhash]
    by_cases hi : t.hash n = i
    · simp [hi, List.filter_cons]
    · simp [hi, List.filter_cons]

/-! ## The claims -/

/-- C1 (the code departs from the claim): on a table constructed with case folding,
`putSymbol "Apple"` creates an entry, and "Apple" and "apple" are equal after lower-casing and
select the same bucket, yet `getSymbol "apple"` returns `nullptr`: the chain walk compares the
names with `strcmp`, byte for byte, whatever `fold_case` is. -/
theorem C1_folded_getSymbol_misses :
    ((SymbolTable.construct 1).putSymbol (cstr "Apple")).1
        = [⟨cstr "Apple", none, .indeterminate⟩] ∧
      (cstr "Apple").map tolower = (cstr "apple").map tolower ∧
      (SymbolTable.construct 1).hash (cstr "Apple") = (SymbolTable.construct 1).hash (cstr "apple") ∧
      (((SymbolTable.construct 1).putSymbol (cstr "Apple")).2.getSymbol (cstr "apple")).1 = [] := by
  decide

/-- C2: in every table reached from a table constructed without case folding, `getSymbol s`
returns an entry exactly when some chain of the table holds an entry named `s` byte for byte; the
pointer returned is the pointer to that very node, and its name is `s`; without such an entry the
result is `nullptr`. From the empty table, `putSymbol "Apple"` then `getSymbol "apple"` gives
`nullptr`, and `putSymbol s` then `getSymbol s` gives the pointer `putSymbol` returned. -/
theorem C2_unfolded_getSymbol_exact (ops : List Op) (s : CString) :
    ((((SymbolTable.construct 0).run ops).getSymbol s).1 ≠ [] ↔
        ∃ i : Fin 256, ∃ e ∈ ((SymbolTable.construct 0).run ops).slots.get i, e.name = s) ∧
      (∀ (i : Fin 256) (pre : Chain) (e : SymbolTableEntry) (post : Chain),
        ((SymbolTable.construct 0).run ops).slots.get i = pre ++ e :: post → e.name = s →
          (((SymbolTable.construct 0).run ops).getSymbol s).1 = e :: post) ∧
      (∀ (e : SymbolTableEntry) (rest : Chain),
        (((SymbolTable.construct 0).run ops).getSymbol s).1 = e :: rest → e.name = s) ∧
      (((SymbolTable.construct 0).putSymbol (cstr "Apple")).2.getSymbol (cstr "apple")).1 = [] ∧
      ((((SymbolTable.construct 0).run ops).putSymbol s).2.getSymbol s).1
        = (((SymbolTable.construct 0).run ops).putSymbol s).1 ∧
      (((SymbolTable.construct 0).run ops).putSymbol s).1 ≠ [] := by
  have hinv : ((SymbolTable.construct 0).run ops).Inv := Inv_run _ ops (Inv_construct 0)
  generalize (SymbolTable.construct 0).run ops = t at hinv
  have hnode : ∀ (i : Fin 256) (pre : Chain) (e : SymbolTableEntry) (post : Chain),
      t.slots.get i = pre ++ e :: post → e.name = s → (t.getSymbol s).1 = e :: post := by
    intro i pre e post hc hname
    rw [getSymbol_fst, ← hname]
    exact lookup_of_node t hinv i pre e post hc
  refine ⟨⟨?_, ?_⟩, hnode, ?_, by decide, ?_, ?_⟩
  · intro hne
    rw [getSymbol_fst] at hne
    cases hr : putSymbol_loop s (t.slots.get (t.hash s)) with
    | nil => exact absurd hr hne
    | cons e rest =>
      obtain ⟨hname, pre, hpre, -⟩ := putSymbol_loop_cons s _ e rest hr
      exact ⟨t.hash s, e, by rw [hpre]; simp, hname⟩
  · rintro ⟨i, e, he, hname⟩
    obtain ⟨pre, post, hc⟩ := List.append_of_mem he
    rw [hnode i pre e post hc hname]
    simp
  · intro e rest hr
    rw [getSymbol_fst] at hr
    exact (putSymbol_loop_cons s _ e rest hr).1
  · rw [getSymbol_fst]
    exact lookup_after_putSymbol t s
  · rw [← lookup_after_putSymbol t s]
    intro hnil
    have habs := (putSymbol_loop_eq_nil_iff s _).mp hnil
    rw [hash_congr _ t (putSymbol_fold_case t s)] at habs
    by_cases hl : putSymbol_loop s (t.slots.get (t.hash s)) = []
    · rw [putSymbol_new t s hl] at habs
      simp only [Mathlib.Vector.get_set_same] at habs
      exact habs _ (List.mem_cons_self _ _) rfl
    · rw [putSymbol_old t s hl] at habs
      exact hl ((putSymbol_loop_eq_nil_iff s _).mpr habs)

theorem C2_unfolded_getSymbol_exact_witness :
    (((SymbolTable.construct 0).run
        [.putSymbol (cstr "!"), .putSymbol (cstr "ab"), .putSymbol (cstr "bC")]).getSymbol
          (cstr "ab")).1
      = [⟨cstr "ab", none, .indeterminate⟩, ⟨cstr "!", none, .indeterminate⟩] :=
  (C2_unfolded_getSymbol_exact
      [.putSymbol (cstr "!"), .putSymbol (cstr "ab"), .putSymbol (cstr "bC")] (cstr "ab")).2.1
    ⟨33, by decide⟩ [⟨cstr "bC", none, .indeterminate⟩] ⟨cstr "ab", none, .indeterminate⟩
    [⟨cstr "!", none, .indeterminate⟩] (by decide) (by decide)

/-- C3 (the code departs from the claim): a table constructed with case folding, after
`putSymbol "Apple"` and `putSymbol "apple"`, holds two entries on one chain whose names differ
only in letter case. -/
theorem C3_folded_table_holds_case_variants :
    ((SymbolTable.construct 1).run
        [.putSymbol (cstr "Apple"), .putSymbol (cstr "apple")]).slots.get
          ((SymbolTable.construct 1).hash (cstr "apple"))
        = [⟨cstr "apple", none, .indeterminate⟩, ⟨cstr "Apple", none, .indeterminate⟩] ∧
      ((SymbolTable.construct 1).run
        [.putSymbol (cstr "Apple"), .putSymbol (cstr "apple")]).number_entries = 2 ∧
      (cstr "Apple").map tolower = (cstr "apple").map tolower := by
  decide

/-- C4: in every table reached from construction (with any flag) by `putSymbol`, `getSymbol`
and `clearSymbolTable`, each entry on the chain of bucket `i` has a name whose hash, taken with
the table's own `fold_case`, is `i` (an index below 256). -/
theorem C4_bucket_invariant (fold_case_flag : Int) (ops : List Op) (i : Fin 256)
    (e : SymbolTableEntry)
    (he : e ∈ ((SymbolTable.construct fold_case_flag).run ops).slots.get i) :
    ((SymbolTable.construct fold_case_flag).run ops).hash e.name = i ∧ i.val < 256 :=
  ⟨(Inv_run _ ops (Inv_construct fold_case_flag)).1 i e he, i.isLt⟩

theorem C4_bucket_invariant_witness :
    (⟨cstr "Apple", none, .indeterminate⟩ : SymbolTableEntry) ∈
        ((SymbolTable.construct 1).run
          [.putSymbol (cstr "Apple"), .getSymbol (cstr "b"), .putSymbol (cstr "apple")]).slots.get
            ⟨90, by decide⟩ ∧
      (((SymbolTable.construct 1).run
          [.putSymbol (cstr "Apple"), .getSymbol (cstr "b"), .putSymbol (cstr "apple")]).hash
            (cstr "Apple") = ⟨90, by decide⟩ ∧ (90 : Nat) < 256) :=
  ⟨by decide, C4_bucket_invariant 1 _ ⟨90, by decide⟩ ⟨cstr "Apple", none, .indeterminate⟩
    (by decide)⟩

/-- C5: for every table (so for every reachable one) and every name `s` that no entry of the
table bears, the first `putSymbol s` raises `number_entries` by 1 and the second by 0 (1 in
total), both calls return the same pointer (to an entry named `s`), and the second call leaves
the whole table as the first call left it. -/
theorem C5_putSymbol_idempotent (t : SymbolTable) (s : CString)
    (habs : ∀ i : Fin 256, ∀ e ∈ t.slots.get i, e.name ≠ s) :
    (t.putSymbol s).2.number_entries = t.number_entries + 1 ∧
      ((t.putSymbol s).2.putSymbol s).2.number_entries = (t.putSymbol s).2.number_entries ∧
      ((t.putSymbol s).2.putSymbol s).2.number_entries = t.number_entries + 1 ∧
      ((t.putSymbol s).2.putSymbol s).1 = (t.putSymbol s).1 ∧
      (∃ rest, (t.putSymbol s).1 = ⟨s, none, .indeterminate⟩ :: rest) ∧
      ((t.putSymbol s).2.putSymbol s).2 = (t.putSymbol s).2 := by
  have hl : putSymbol_loop s (t.slots.get (t.hash s)) = [] :=
    (putSymbol_loop_eq_nil_iff s _).mpr (habs (t.hash s))
  have h1 : (t.putSymbol s).2.number_entries = t.number_entries + 1 := by
    rw [putSymbol_new t s hl]
  have hne : putSymbol_loop s ((t.putSymbol s).2.slots.get ((t.putSymbol s).2.hash s)) ≠ [] := by
    rw [lookup_after_putSymbol, putSymbol_new t s hl]
    simp
  have h2 : (t.putSymbol s).2.putSymbol s = ((t.putSymbol s).1, (t.putSymbol s).2) := by
    rw [putSymbol_old _ s hne, lookup_after_putSymbol]
  refine ⟨h1, ?_, ?_, ?_, ?_, ?_⟩
  · rw [h2]
  · rw [h2, h1]
  · rw [h2]
  · exact ⟨t.slots.get (t.hash s), by rw [putSymbol_new t s hl]⟩
  · rw [h2]

theorem C5_putSymbol_idempotent_witness :
    (((SymbolTable.construct 1).run [.putSymbol (cstr "a")]).putSymbol (cstr "b")).2.number_entries
        = ((SymbolTable.construct 1).run [.putSymbol (cstr "a")]).number_entries + 1 ∧
      ((((SymbolTable.construct 1).run [.putSymbol (cstr "a")]).putSymbol (cstr "b")).2.putSymbol
          (cstr "b")).2.number_entries
        = (((SymbolTable.construct 1).run [.putSymbol (cstr "a")]).putSymbol
            (cstr "b")).2.number_entries ∧
      ((((SymbolTable.construct 1).run [.putSymbol (cstr "a")]).putSymbol (cstr "b")).2.putSymbol
          (cstr "b")).2.number_entries
        = ((SymbolTable.construct 1).run [.putSymbol (cstr "a")]).number_entries + 1 ∧
      ((((SymbolTable.construct 1).run [.putSymbol (cstr "a")]).putSymbol (cstr "b")).2.putSymbol
          (cstr "b")).1
        = (((SymbolTable.construct 1).run [.putSymbol (cstr "a")]).putSymbol (cstr "b")).1 ∧
      (∃ rest, (((SymbolTable.construct 1).run [.putSymbol (cstr "a")]).putSymbol (cstr "b")).1
        = ⟨cstr "b", none, .indeterminate⟩ :: rest) ∧
      ((((SymbolTable.construct 1).run [.putSymbol (cstr "a")]).putSymbol (cstr "b")).2.putSymbol
          (cstr "b")).2
        = (((SymbolTable.construct 1).run [.putSymbol (cstr "a")]).putSymbol (cstr "b")).2 :=
  C5_putSymbol_idempotent ((SymbolTable.construct 1).run [.putSymbol (cstr "a")]) (cstr "b")
    (absent_of_scan _ _ (by decide))

/-- C6 as stated fails: on a table whose `number_probes` is `INT_MAX` (2147483647, reached
after that many calls of `getSymbol`), one more `getSymbol` leaves `number_probes` at `INT_MIN`
(-2147483648), not one higher; and on a table whose `number_hits` is `INT_MAX` a successful
`getSymbol` leaves `number_hits` at `INT_MIN`. -/
theorem C6_counters_wrap_at_INT_MAX :
    ((({ SymbolTable.construct 0 with number_probes := 2147483647 } : SymbolTable).getSymbol
        (cstr "x")).1 = [] ∧
      (({ SymbolTable.construct 0 with number_probes := 2147483647 } : SymbolTable).getSymbol
        (cstr "x")).2.number_probes = -2147483648) ∧
    ((({ (SymbolTable.construct 0).run [.putSymbol (cstr "a")] with
          number_probes := 2147483647, number_hits := 2147483647 } : SymbolTable).getSymbol
        (cstr "a")).1 = [⟨cstr "a", none, .indeterminate⟩] ∧
      (({ (SymbolTable.construct 0).run [.putSymbol (cstr "a")] with
          number_probes := 2147483647, number_hits := 2147483647 } : SymbolTable).getSymbol
        (cstr "a")).2.number_hits = -2147483648) := by
  decide

/-- C6, amended: for every table and name, one `getSymbol` raises `number_probes` by exactly 1
when it is below `INT_MAX`, whatever the chain walked and whether or not the name is found (at
`INT_MAX` it goes to `INT_MIN`). It returns an entry exactly when the chain of the bucket of the
name holds an entry with that name, byte for byte. When it returns an entry, `number_hits` goes
up by exactly 1 if it is below `INT_MAX` (at `INT_MAX` it goes to `INT_MIN`); when it returns
`nullptr`, `number_hits` stays as it was. -/
theorem C6_getSymbol_counters (t : SymbolTable) (s : CString) :
    (t.number_probes < INT_MAX → (t.getSymbol s).2.number_probes = t.number_probes + 1) ∧
      (t.number_probes = INT_MAX → (t.getSymbol s).2.number_probes = INT_MIN) ∧
      ((t.getSymbol s).1 ≠ [] ↔ ∃ e ∈ t.slots.get (t.hash s), e.name = s) ∧
      ((t.getSymbol s).1 ≠ [] → t.number_hits < INT_MAX →
        (t.getSymbol s).2.number_hits = t.number_hits + 1) ∧
      ((t.getSymbol s).1 ≠ [] → t.number_hits = INT_MAX →
        (t.getSymbol s).2.number_hits = INT_MIN) ∧
      ((t.getSymbol s).1 = [] → (t.getSymbol s).2.number_hits = t.number_hits) := by
  have hprobes : (t.getSymbol s).2.number_probes = int_increment t.number_probes := by
    rw [getSymbol_snd]; split_ifs <;> rfl
  have hhits : (t.getSymbol s).2.number_hits
      = if (t.getSymbol s).1 = [] then t.number_hits else int_increment t.number_hits := by
    rw [getSymbol_fst, getSymbol_snd]; split_ifs <;> rfl
  refine ⟨?_, ?_, ?_, ?_, ?_, ?_⟩
  · intro hlt
    rw [hprobes, int_increment, if_neg (ne_of_lt hlt)]
  · intro heq
    rw [hprobes, int_increment, if_pos heq]
  · rw [getSymbol_fst, Ne, putSymbol_loop_eq_nil_iff]
    push_neg
    rfl
  · intro hne hlt
    rw [hhits, if_neg hne, int_increment, if_neg (ne_of_lt hlt)]
  · intro hne heq
    rw [hhits, if_neg hne, int_increment, if_pos heq]
  · intro hnil
    rw [hhits, if_pos hnil]

theorem C6_getSymbol_counters_witness :
    (((SymbolTable.construct 0).run [.putSymbol (cstr "!"), .putSymbol (cstr "ab")]).getSymbol
        (cstr "!")).2.number_probes = 1 ∧
      (((SymbolTable.construct 0).run [.putSymbol (cstr "!"), .putSymbol (cstr "ab")]).getSymbol
        (cstr "!")).2.number_hits = 1 ∧
      (((SymbolTable.construct 0).run [.putSymbol (cstr "!"), .putSymbol (cstr "ab")]).getSymbol
        (cstr "?")).2.number_hits = 0 :=
  ⟨(C6_getSymbol_counters
      ((SymbolTable.construct 0).run [.putSymbol (cstr "!"), .putSymbol (cstr "ab")])
      (cstr "!")).1 (by decide),
    (C6_getSymbol_counters
      ((SymbolTable.construct 0).run [.putSymbol (cstr "!"), .putSymbol (cstr "ab")])
      (cstr "!")).2.2.2.1 (by decide) (by decide),
    (C6_getSymbol_counters
      ((SymbolTable.construct 0).run [.putSymbol (cstr "!"), .putSymbol (cstr "ab")])
      (cstr "?")).2.2.2.2.2 (by decide)⟩

/-- C7: for every table and name, `putSymbol` leaves `number_probes` and `number_hits` as they
were, whether it finds the name or creates an entry, and so does `clearSymbolTable`; on a freshly
constructed table one `putSymbol "a"` leaves `number_probes` at 0. -/
theorem C7_only_getSymbol_counts (t : SymbolTable) (s : CString) (fold_case_flag : Int) :
    (t.putSymbol s).2.number_probes = t.number_probes ∧
      (t.putSymbol s).2.number_hits = t.number_hits ∧
      t.clearSymbolTable.number_probes = t.number_probes ∧
      t.clearSymbolTable.number_hits = t.number_hits ∧
      ((SymbolTable.construct fold_case_flag).putSymbol (cstr "a")).2.number_probes = 0 := by
  have hput : ∀ (u : SymbolTable) (str : CString),
      (u.putSymbol str).2.number_probes = u.number_probes ∧
        (u.putSymbol str).2.number_hits = u.number_hits := by
    intro u str
    by_cases hl : putSymbol_loop str (u.slots.get (u.hash str)) = []
    · rw [putSymbol_new u str hl]; exact ⟨rfl, rfl⟩
    · rw [putSymbol_old u str hl]; exact ⟨rfl, rfl⟩
  refine ⟨(hput t s).1, (hput t s).2, rfl, rfl, ?_⟩
  rw [(hput _ _).1]
  rfl

/-- C9: for every table, after `clearSymbolTable` the entry count is 0, each of the 256 buckets
is empty, and `getSymbol` returns `nullptr` for every name. -/
theorem C9_clear_resets_population (t : SymbolTable) (s : CString) :
    t.clearSymbolTable.number_entries = 0 ∧
      (∀ i : Fin 256, t.clearSymbolTable.slots.get i = []) ∧
      t.clearSymbolTable.slots.toList.length = 256 ∧
      (t.clearSymbolTable.getSymbol s).1 = [] := by
  refine ⟨rfl, clearSymbolTable_get t, by simp, ?_⟩
  rw [getSymbol_fst, clearSymbolTable_get]
  rfl

/-- C10: for every table, a `putSymbol s` that creates an entry (no entry named `s` on the
chain of its bucket) returns a pointer to the new node, which heads that chain with the previous
chain following it unchanged, and every other bucket is as before. For distinct names `a`, `b`
with equal hash, both borne by no entry, `putSymbol a` then `putSymbol b` leaves that bucket's
chain as `b`, `a`, then the previous chain, so a scan meets `b` first. More generally, inserting
distinct new names one after another leaves every chain with those names latest first. -/
theorem C10_chain_ordering (t : SymbolTable) :
    (∀ s : CString, (∀ e ∈ t.slots.get (t.hash s), e.name ≠ s) →
        (t.putSymbol s).1 = ⟨s, none, .indeterminate⟩ :: t.slots.get (t.hash s) ∧
        (t.putSymbol s).2.slots.get (t.hash s)
          = ⟨s, none, .indeterminate⟩ :: t.slots.get (t.hash s) ∧
        ∀ j : Fin 256, j ≠ t.hash s → (t.putSymbol s).2.slots.get j = t.slots.get j) ∧
      (∀ a b : CString, a ≠ b → t.hash a = t.hash b →
        (∀ i : Fin 256, ∀ e ∈ t.slots.get i, e.name ≠ a) →
        (∀ i : Fin 256, ∀ e ∈ t.slots.get i, e.name ≠ b) →
        ((t.putSymbol a).2.putSymbol b).2.slots.get (t.hash a)
          = ⟨b, none, .indeterminate⟩ :: ⟨a, none, .indeterminate⟩ :: t.slots.get (t.hash a)) ∧
      (∀ (names : List CString) (i : Fin 256), names.Nodup →
        (∀ n ∈ names, ∀ j : Fin 256, ∀ e ∈ t.slots.get j, e.name ≠ n) →
        (t.run (names.map Op.putSymbol)).slots.get i =
          ((names.filter fun n => decide (t.hash n = i)).reverse.map
            fun n => (⟨n, none, .indeterminate⟩ : SymbolTableEntry)) ++ t.slots.get i) := by
  refine ⟨?_, ?_, ?_⟩
  · intro s habs
    refine ⟨?_, ?_, ?_⟩
    · rw [putSymbol_new t s ((putSymbol_loop_eq_nil_iff s _).mpr habs)]
    · rw [putSymbol_slots_new t s habs, if_pos rfl]
    · intro j hj
      rw [putSymbol_slots_new t s habs, if_neg (Ne.symm hj)]
  · intro a b hab hh ha hb
    have hhash : (t.putSymbol a).2.hash b = t.hash a :=
      (hash_congr _ t (putSymbol_fold_case t a) b).trans hh.symm
    have hb2 : ∀ e ∈ (t.putSymbol a).2.slots.get ((t.putSymbol a).2.hash b), e.name ≠ b := by
      intro e he
      rw [hhash, putSymbol_slots_new t a (ha _), if_pos rfl] at he
      rcases List.mem_cons.mp he with rfl | he
      · exact hab
      · exact hb _ e he
    have := putSymbol_slots_new (t.putSymbol a).2 b hb2 (t.hash a)
    rw [if_pos hhash, putSymbol_slots_new t a (ha _), if_pos rfl] at this
    exact this
  · intro names i hnd habs
    exact run_putSymbol_slots t names hnd (fun n hn => habs n hn (t.hash n)) i

theorem C10_chain_ordering_witness :
    ((((SymbolTable.construct 0).run [.putSymbol (cstr "!")]).putSymbol (cstr "ab")).2.putSymbol
        (cstr "bC")).2.slots.get ⟨33, by decide⟩
      = [⟨cstr "bC", none, .indeterminate⟩, ⟨cstr "ab", none, .indeterminate⟩,
          ⟨cstr "!", none, .indeterminate⟩] :=
  (C10_chain_ordering ((SymbolTable.construct 0).run [.putSymbol (cstr "!")])).2.1
    (cstr "ab") (cstr "bC") (by decide) (by decide)
    (absent_of_scan _ _ (by decide)) (absent_of_scan _ _ (by decide))

/-! ## Auxiliary lemmas on the hash -/

theorem charToSizeT_mod (c : Nat) : charToSizeT c % 256 = c % 256 := by
  unfold charToSizeT
  split_ifs
  · rfl
  · have h : SIZE_T_MOD - 256 = 256 * (2 ^ 56 - 1) := by decide
    rw [h, Nat.mul_add_mod]

theorem hash_loop_mod (fold_case : Int) (hashValue : Nat) (str : CString) :
    hash_loop fold_case hashValue str % 256
      = (hashValue * 31 ^ str.length + hash_poly fold_case str) % 256 := by
  induction str generalizing hashValue with
  | nil => simp [hash_loop, hash_poly]
  | cons c str ih =>
    have hdvd : 256 ∣ SIZE_T_MOD := ⟨2 ^ 56, by decide⟩
    have h1 : ((hashValue * 31 + charToSizeT (hash_char fold_case c)) % SIZE_T_MOD) % 256
        = (hashValue * 31 + hash_char fold_case c) % 256 := by
      rw [Nat.mod_mod_of_dvd _ hdvd, Nat.add_mod, charToSizeT_mod, ← Nat.add_mod]
    have h2 : hash_loop fold_case hashValue (c :: str)
        = hash_loop fold_case
            ((hashValue * 31 + charToSizeT (hash_char fold_case c)) % SIZE_T_MOD) str := rfl
    rw [h2, ih]
    simp only [hash_poly, List.length_cons]
    have h3 : ((hashValue * 31 + charToSizeT (hash_char fold_case c)) % SIZE_T_MOD)
          * 31 ^ str.length % 256
        = (hashValue * 31 + hash_char fold_case c) * 31 ^ str.length % 256 := by
      rw [Nat.mul_mod, h1, ← Nat.mul_mod]
    rw [Nat.add_mod, h3, ← Nat.add_mod]
    congr 1
    ring

theorem hash_spec_eq_poly (fold_case : Int) (name : CString) :
    hash_spec fold_case name = hash_poly fold_case name % 256 := by
  unfold hash_spec
  congr 1
  induction name with
  | nil => simp [hash_poly]
  | cons c str ih =>
    rw [List.length_cons, List.range_succ_eq_map, List.map_cons, List.sum_cons, List.map_map,
      hash_poly, ← ih]
    congr 1
    apply congrArg
    apply List.map_congr_left
    intro i _
    simp only [Function.comp, List.getD_cons_succ, Nat.succ_eq_add_one]
    congr 2
    omega

theorem tolower_tolower (c : Nat) : tolower (tolower c) = tolower c := by
  unfold tolower
  split_ifs <;> omega

theorem hash_loop_fold (fold_case : Int) (hf : fold_case ≠ 0) (hashValue : Nat) (str : CString) :
    hash_loop fold_case hashValue str = hash_loop 0 hashValue (str.map tolower) := by
  induction str generalizing hashValue with
  | nil => rfl
  | cons c str ih =>
    simp only [hash_loop, List.map_cons, hf, ne_eq, not_false_eq_true, if_true]
    rw [ih]
    simp

/-! ## The claims, continued -/

/-- C11 (the code departs from the claim): the entry that `putSymbol` creates and returns has
the name asked for, but its `entry_type` is never written: `putSymbol` allocates the node with
`new SymbolTableEntry` and assigns `name` and `next` only, so the kind is indeterminate and not
`ste_undefined`. -/
theorem C11_new_entry_type_not_set :
    ((SymbolTable.construct 1).putSymbol (cstr "a")).1
        = [⟨cstr "a", none, .indeterminate⟩] ∧
      ((SymbolTable.construct 1).putSymbol (cstr "a")).1.head?.map SymbolTableEntry.name
        = some (cstr "a") ∧
      ((SymbolTable.construct 1).putSymbol (cstr "a")).1.head?.map SymbolTableEntry.entry_type
        ≠ some (some .ste_undefined) := by
  decide

/-- C12: for every table and every name (so for every name of non-zero ASCII bytes and either
value of `fold_case`), `hash` returns the sum of `c_i * 31 ^ (n - 1 - i)` over unbounded
integers, reduced modulo 256, with `c_i` lower-cased under folding: the wraparound of the
`size_t` accumulator does not show in the result. The result is below 256, and it is a function
of the name and `fold_case` alone. -/
theorem C12_hash_is_polynomial_mod_256 (t : SymbolTable) (name : CString) :
    (t.hash name).val = hash_spec t.fold_case name ∧
      (t.hash name).val < 256 ∧
      (∀ u : SymbolTable, u.fold_case = t.fold_case → u.hash name = t.hash name) := by
  refine ⟨?_, (t.hash name).isLt, fun u hu => hash_congr u t hu name⟩
  show hash_loop t.fold_case 0 name % 256 = _
  rw [hash_loop_mod, hash_spec_eq_poly]
  simp

theorem C12_hash_is_polynomial_mod_256_witness :
    ((SymbolTable.construct 1).run [.putSymbol (cstr "x"), .getSymbol (cstr "y")]).hash
        (cstr "Apple") = (SymbolTable.construct 1).hash (cstr "Apple") :=
  (C12_hash_is_polynomial_mod_256 (SymbolTable.construct 1) (cstr "Apple")).2.2 _ (by decide)

/-- C17: in a table with case folding (`fold_case` not zero), two names that are equal after
lower-casing every character have the same hash, which is also the hash of the lower-cased
name: they select the same bucket. -/
theorem C17_folded_hash_ignores_case (t : SymbolTable) (s u : CString)
    (hf : t.fold_case ≠ 0) (h : s.map tolower = u.map tolower) :
    t.hash s = t.hash u ∧ t.hash s = t.hash (s.map tolower) := by
  have key : ∀ str : CString, t.hash str = ⟨hash_loop 0 0 (str.map tolower) % 256,
      Nat.mod_lt _ (by decide)⟩ := by
    intro str
    apply Fin.ext
    show hash_loop t.fold_case 0 str % 256 = _
    rw [hash_loop_fold _ hf]
  refine ⟨?_, ?_⟩
  · rw [key s, key u]
    simp only [h]
  · rw [key s, key (s.map tolower)]
    simp only [List.map_map]
    have : (tolower ∘ tolower) = tolower := funext tolower_tolower
    simp only [this]

theorem C17_folded_hash_ignores_case_witness :
    (SymbolTable.construct 1).hash (cstr "Apple") = (SymbolTable.construct 1).hash (cstr "aPPLE") ∧
      (SymbolTable.construct 1).hash (cstr "Apple")
        = (SymbolTable.construct 1).hash ((cstr "Apple").map tolower) :=
  C17_folded_hash_ignores_case (SymbolTable.construct 1) (cstr "Apple") (cstr "aPPLE")
    (by decide) (by decide)

/-! ## Auxiliary lemmas on the statistics -/

theorem chainLength_loop_eq (chainLength : Int) (c : Chain) :
    chainLength_loop chainLength c = chainLength + c.length := by
  induction c generalizing chainLength with
  | nil => simp [chainLength_loop]
  | cons e next ih =>
    rw [chainLength_loop, ih]
    push_cast [List.length_cons]
    ring

theorem printSymbolStats_step_eq (acc : Int × Int) (c : Chain) (h0 : 0 ≤ acc.2) :
    printSymbolStats_step acc c
      = (acc.1 + (if c = [] then 1 else 0), max acc.2 (c.length : Int)) := by
  cases c with
  | nil => simp [printSymbolStats_step, h0]
  | cons e next =>
    simp only [printSymbolStats_step, chainLength_loop_eq, zero_add]
    by_cases hgt : ((e :: next).length : Int) > acc.2
    · rw [if_pos hgt, max_eq_right (le_of_lt hgt)]
      simp
    · rw [if_neg hgt, max_eq_left (not_lt.mp hgt)]
      simp

/-- The loop of `printSymbolStats` over a list of buckets, started with a non-negative longest
length: it counts the empty buckets and keeps the largest chain length met. -/
theorem printSymbolStats_fold (l : List Chain) (acc : Int × Int) (h0 : 0 ≤ acc.2) :
    (l.foldl printSymbolStats_step acc).1 = acc.1 + (l.countP fun c => decide (c = [])) ∧
      acc.2 ≤ (l.foldl printSymbolStats_step acc).2 ∧
      (∀ c ∈ l, (c.length : Int) ≤ (l.foldl printSymbolStats_step acc).2) ∧
      ((l.foldl printSymbolStats_step acc).2 = acc.2 ∨
        ∃ c ∈ l, (l.foldl printSymbolStats_step acc).2 = (c.length : Int)) := by
  induction l generalizing acc with
  | nil => simp
  | cons c l ih =>
    have hstep := printSymbolStats_step_eq acc c h0
    have h0step : 0 ≤ (printSymbolStats_step acc c).2 := by
      rw [hstep]; exact le_trans h0 (le_max_left _ _)
    obtain ⟨h1, h2, h3, h4⟩ := ih (printSymbolStats_step acc c) h0step
    simp only [List.foldl_cons]
    refine ⟨?_, ?_, ?_, ?_⟩
    · rw [h1, hstep, List.countP_cons]
      by_cases hc : c = []
      · simp [hc]; ring
      · simp [hc]
    · refine le_trans ?_ h2
      rw [hstep]; exact le_max_left _ _
    · intro d hd
      rcases List.mem_cons.mp hd with rfl | hd
      · refine le_trans ?_ h2
        rw [hstep]; exact le_max_right _ _
      · exact h3 d hd
    · rcases h4 with h4 | ⟨d, hd, h4⟩
      · rw [h4, hstep]
        rcases max_choice acc.2 (c.length : Int) with hm | hm
        · left; exact hm
        · right; exact ⟨c, List.mem_cons_self _ _, hm⟩
      · right; exact ⟨d, List.mem_cons_of_mem _ hd, h4⟩

theorem countP_toList_eq_card (v : Mathlib.Vector Chain 256) :
    (v.toList.countP fun c => decide (c = []))
      = (Finset.univ.filter fun i : Fin 256 => v.get i = []).card := by
  conv_lhs => rw [← Mathlib.Vector.ofFn_get v, Mathlib.Vector.toList_ofFn, List.ofFn_eq_map,
    List.countP_map]
  simp [Finset.card, Finset.filter, Finset.univ, Fintype.elems, List.countP_eq_length_filter,
    Function.comp_def]

theorem sum_lengths_set (l : List Chain) (i : Nat) (hi : i < l.length) (x : SymbolTableEntry) :
    ((l.set i (x :: l[i])).map List.length).sum = (l.map List.length).sum + 1 := by
  induction l generalizing i with
  | nil => simp at hi
  | cons c l ih =>
    cases i with
    | zero => simp; omega
    | succ i =>
      have hi2 : i < l.length := by simpa using hi
      simp only [List.set_cons_succ, List.map_cons, List.sum_cons, List.getElem_cons_succ]
      rw [ih i hi2]
      omega

theorem length_le_countP_add_sum (l : List Chain) :
    l.length ≤ (l.countP fun c => decide (c = [])) + (l.map List.length).sum := by
  induction l with
  | nil => simp
  | cons c l ih =>
    cases c with
    | nil => simp [List.countP_cons]; omega
    | cons e next => simp [List.countP_cons]; omega

theorem length_le_sum_of_mem (l : List Chain) (c : Chain) (hc : c ∈ l) :
    c.length ≤ (l.map List.length).sum := by
  induction l with
  | nil => simp at hc
  | cons d l ih =>
    rcases List.mem_cons.mp hc with rfl | hc
    · simp
    · have := ih hc
      simp only [List.map_cons, List.sum_cons]
      omega

theorem total_entries_putSymbol_new (t : SymbolTable) (str : CString)
    (h : putSymbol_loop str (t.slots.get (t.hash str)) = []) :
    (t.putSymbol str).2.total_entries = t.total_entries + 1 := by
  rw [putSymbol_new t str h]
  simp only [SymbolTable.total_entries, Mathlib.Vector.toList_set, Mathlib.Vector.get_eq_get]
  have hi : (t.hash str).val < t.slots.toList.length := by
    rw [Mathlib.Vector.toList_length]; exact (t.hash str).isLt
  exact sum_lengths_set t.slots.toList (t.hash str).val hi _

theorem total_entries_clearSymbolTable (t : SymbolTable) :
    t.clearSymbolTable.total_entries = 0 := by
  simp only [SymbolTable.total_entries]
  apply List.sum_eq_zero
  intro n hn
  obtain ⟨c, hc, rfl⟩ := List.mem_map.mp hn
  obtain ⟨i, rfl⟩ := (Mathlib.Vector.mem_iff_get _ _).mp hc
  rw [clearSymbolTable_get]
  rfl

theorem total_entries_construct (flag : Int) : (SymbolTable.construct flag).total_entries = 0 := by
  simp only [SymbolTable.total_entries]
  apply List.sum_eq_zero
  intro n hn
  obtain ⟨c, hc, rfl⟩ := List.mem_map.mp hn
  obtain ⟨i, rfl⟩ := (Mathlib.Vector.mem_iff_get _ _).mp hc
  rw [construct_get]
  rfl

theorem count_step (t : SymbolTable) (op : Op) (h : t.number_entries = t.total_entries) :
    (t.step op).number_entries = (t.step op).total_entries := by
  cases op with
  | putSymbol str =>
    show (t.putSymbol str).2.number_entries = (t.putSymbol str).2.total_entries
    by_cases hl : putSymbol_loop str (t.slots.get (t.hash str)) = []
    · rw [total_entries_putSymbol_new t str hl, putSymbol_new t str hl]
      simp [h]
    · rw [putSymbol_old t str hl]; exact h
  | getSymbol str =>
    show (t.getSymbol str).2.number_entries = (t.getSymbol str).2.total_entries
    have h1 : (t.getSymbol str).2.number_entries = t.number_entries := by
      rw [getSymbol_snd]; split_ifs <;> rfl
    rw [h1, h]
    simp only [SymbolTable.total_entries, getSymbol_slots]
  | clearSymbolTable =>
    show t.clearSymbolTable.number_entries = t.clearSymbolTable.total_entries
    rw [total_entries_clearSymbolTable]
    rfl

theorem count_run (t : SymbolTable) (ops : List Op) (h : t.number_entries = t.total_entries) :
    (t.run ops).number_entries = (t.run ops).total_entries := by
  induction ops generalizing t with
  | nil => exact h
  | cons op ops ih => exact ih (t.step op) (count_step t op h)

/-- What `printSymbolStats` finds on any table: the empty buckets counted, the largest chain
length attained and not exceeded. -/
theorem printSymbolStats_scan (t : SymbolTable) :
    (t.printSymbolStats).1.emptySlots
        = (t.slots.toList.countP fun c => decide (c = [])) ∧
      (∀ i : Fin 256, ((t.slots.get i).length : Int) ≤ (t.printSymbolStats).1.longestSearchChain) ∧
      (∃ i : Fin 256, ((t.slots.get i).length : Int) = (t.printSymbolStats).1.longestSearchChain) := by
  obtain ⟨h1, -, h3, h4⟩ := printSymbolStats_fold t.slots.toList (0, 0) (le_refl _)
  have hall : ∀ i : Fin 256,
      ((t.slots.get i).length : Int) ≤ (t.printSymbolStats).1.longestSearchChain :=
    fun i => h3 _ (Mathlib.Vector.get_mem i t.slots)
  refine ⟨?_, hall, ?_⟩
  · show (t.slots.toList.foldl printSymbolStats_step (0, 0)).1 = _
    rw [h1]; simp
  · rcases h4 with h4 | ⟨c, hc, h4⟩
    · refine ⟨0, le_antisymm (hall 0) ?_⟩
      show (t.slots.toList.foldl printSymbolStats_step (0, 0)).2 ≤ _
      rw [h4]
      exact Int.natCast_nonneg _
    · obtain ⟨i, rfl⟩ := (Mathlib.Vector.mem_iff_get _ _).mp hc
      exact ⟨i, h4.symm⟩

/-- C13: for every table, `printSymbolStats` reports as empty slots the number of buckets (out
of the 256) whose chain is empty, and as longest search chain the maximum chain length over all
buckets: no chain is longer and some chain is that long (so it is 0 exactly when every bucket is
empty). It reports `number_entries` and `number_hits` as stored, and leaves the table as it
was. -/
theorem C13_printSymbolStats_report (t : SymbolTable) :
    (t.printSymbolStats).1.emptySlots
        = ((Finset.univ.filter fun i : Fin 256 => t.slots.get i = []).card : Int) ∧
      (∀ i : Fin 256, ((t.slots.get i).length : Int) ≤ (t.printSymbolStats).1.longestSearchChain) ∧
      (∃ i : Fin 256, ((t.slots.get i).length : Int) = (t.printSymbolStats).1.longestSearchChain) ∧
      ((t.printSymbolStats).1.longestSearchChain = 0 ↔ ∀ i : Fin 256, t.slots.get i = []) ∧
      (t.printSymbolStats).1.number_entries = t.number_entries ∧
      (t.printSymbolStats).1.number_hits = t.number_hits ∧
      (t.printSymbolStats).2 = t := by
  obtain ⟨h1, h2, h3⟩ := printSymbolStats_scan t
  refine ⟨?_, h2, h3, ⟨?_, ?_⟩, rfl, rfl, rfl⟩
  · rw [h1, countP_toList_eq_card]
  · intro hz i
    have := h2 i
    rw [hz] at this
    exact List.length_eq_zero.mp (by omega)
  · intro hall
    obtain ⟨i, hi⟩ := h3
    rw [← hi, hall i]
    rfl

/-- C14: the run of `main` (table with case folding; `putSymbol "apple"`, `putSymbol "banana"`,
`getSymbol "apple"`, `getSymbol "orange"`; "apple" classified as a string variable and "banana"
as the constant 42 through the pointers `putSymbol` returned). The lookup of "apple" returns the
pointer `putSymbol "apple"` returned, and the entry read through it is "apple" of kind variable;
the lookup of "orange" returns `nullptr`. The counters are 2 entries, 2 probes, 1 hit; the
statistics show 254 empty slots and a longest chain of 1; "apple" and "banana" hash to different
buckets. The same holds when each entry is classified right after its insertion. -/
theorem C14_end_to_end_scenario :
    main.entry3 = ((SymbolTable.construct 1).putSymbol (cstr "apple")).1 ∧
      main.table.deref main.entry3
        = some ⟨cstr "apple", some .ste_var, .var .type_string⟩ ∧
      main.line3 = some (cstr "apple") ∧
      main.entry4 = [] ∧ main.line4 = none ∧
      main.table.number_entries = 2 ∧ main.table.number_probes = 2 ∧
      main.table.number_hits = 1 ∧
      main.stats = ⟨2, 254, ⟨2, 2⟩, 1, 1⟩ ∧
      (SymbolTable.construct 1).hash (cstr "apple")
        ≠ (SymbolTable.construct 1).hash (cstr "banana") ∧
      main_classified_first.entry3.head?
        = some ⟨cstr "apple", some .ste_var, .var .type_string⟩ ∧
      main_classified_first.entry4 = [] ∧
      main_classified_first.table.number_probes = 2 ∧
      main_classified_first.stats = ⟨2, 254, ⟨2, 2⟩, 1, 1⟩ ∧
      main_classified_first.table = main.table := by
  decide

/-- C15 as stated fails twice: `clearSymbolTable` on a table holding one entry takes
`number_entries` from 1 down to 0; and `getSymbol` on a table whose `number_probes` is `INT_MAX`
(2147483647, reached after that many calls of `getSymbol`) takes it down to `INT_MIN`. -/
theorem C15_clear_and_overflow_lower_counters :
    ((SymbolTable.construct 0).run [.putSymbol (cstr "a")]).clearSymbolTable.number_entries
        < ((SymbolTable.construct 0).run [.putSymbol (cstr "a")]).number_entries ∧
      (({ SymbolTable.construct 0 with number_probes := 2147483647 } : SymbolTable).getSymbol
          (cstr "x")).2.number_probes
        < ({ SymbolTable.construct 0 with number_probes := 2147483647 } : SymbolTable).number_probes := by
  decide

/-- C15, amended: for every table and name, `number_probes` and `number_hits` are not smaller
after `putSymbol` or `clearSymbolTable` than before, and not smaller after `getSymbol` when the
counter is below `INT_MAX` before the call; `number_entries` is not smaller after `putSymbol` or
`getSymbol`; `clearSymbolTable` sets `number_entries` to 0. -/
theorem C15_counters_monotone_except_clear_and_overflow (t : SymbolTable) (s : CString) :
    (t.number_entries ≤ (t.putSymbol s).2.number_entries ∧
        t.number_probes ≤ (t.putSymbol s).2.number_probes ∧
        t.number_hits ≤ (t.putSymbol s).2.number_hits) ∧
      (t.number_entries ≤ (t.getSymbol s).2.number_entries ∧
        (t.number_probes < INT_MAX → t.number_probes ≤ (t.getSymbol s).2.number_probes) ∧
        (t.number_hits < INT_MAX → t.number_hits ≤ (t.getSymbol s).2.number_hits)) ∧
      (t.clearSymbolTable.number_entries = 0 ∧
        t.number_probes ≤ t.clearSymbolTable.number_probes ∧
        t.number_hits ≤ t.clearSymbolTable.number_hits) := by
  have hinc : ∀ x : Int, x < INT_MAX → x ≤ int_increment x := by
    intro x hx
    rw [int_increment, if_neg (ne_of_lt hx)]
    omega
  refine ⟨?_, ?_, rfl, le_refl _, le_refl _⟩
  · by_cases hl : putSymbol_loop s (t.slots.get (t.hash s)) = []
    · rw [putSymbol_new t s hl]
      exact ⟨by simp, le_refl _, le_refl _⟩
    · rw [putSymbol_old t s hl]
      exact ⟨le_refl _, le_refl _, le_refl _⟩
  · rw [getSymbol_snd]
    split_ifs
    · exact ⟨le_refl _, hinc _, fun _ => le_refl _⟩
    · exact ⟨le_refl _, hinc _, hinc _⟩

theorem C15_counters_monotone_except_clear_and_overflow_witness :
    ((SymbolTable.construct 0).run [.putSymbol (cstr "!"), .putSymbol (cstr "ab")]).number_probes
        ≤ (((SymbolTable.construct 0).run [.putSymbol (cstr "!"), .putSymbol (cstr "ab")]).getSymbol
            (cstr "!")).2.number_probes ∧
      ((SymbolTable.construct 0).run [.putSymbol (cstr "!"), .putSymbol (cstr "ab")]).number_hits
        ≤ (((SymbolTable.construct 0).run [.putSymbol (cstr "!"), .putSymbol (cstr "ab")]).getSymbol
            (cstr "!")).2.number_hits :=
  ⟨(C15_counters_monotone_except_clear_and_overflow
      ((SymbolTable.construct 0).run [.putSymbol (cstr "!"), .putSymbol (cstr "ab")])
      (cstr "!")).2.1.2.1 (by decide),
    (C15_counters_monotone_except_clear_and_overflow
      ((SymbolTable.construct 0).run [.putSymbol (cstr "!"), .putSymbol (cstr "ab")])
      (cstr "!")).2.1.2.2 (by decide)⟩

/-- C16 as stated fails: on a freshly constructed table, and on a cleared one, `number_entries`
is 0 and `printSymbolStats` still forms the quotient of `number_probes` by `number_entries`: the
divisor is 0, and nothing marks the average as missing. -/
theorem C16_average_divides_by_zero :
    (SymbolTable.construct 0).number_entries = 0 ∧
      ((SymbolTable.construct 0).printSymbolStats).1.average_probes = ⟨0, 0⟩ ∧
      ((SymbolTable.construct 0).run
          [.putSymbol (cstr "a"), .getSymbol (cstr "a"), .clearSymbolTable]).number_entries = 0 ∧
      (((SymbolTable.construct 0).run
          [.putSymbol (cstr "a"), .getSymbol (cstr "a"),
            .clearSymbolTable]).printSymbolStats).1.average_probes = ⟨1, 0⟩ := by
  decide

/-- C16, amended: for every table, `printSymbolStats` reports as average the floating-point
quotient of `number_probes` by `number_entries`, with no guard: the division is performed
whatever `number_entries` is, also when it is 0. -/
theorem C16_average_is_unguarded_quotient (t : SymbolTable) :
    (t.printSymbolStats).1.average_probes = ⟨t.number_probes, t.number_entries⟩ ∧
      (t.clearSymbolTable.printSymbolStats).1.average_probes = ⟨t.number_probes, 0⟩ :=
  ⟨rfl, rfl⟩

/-- C18: in every table reached from construction by `putSymbol`, `getSymbol` and
`clearSymbolTable`, `number_entries` is the total number of entries on the 256 chains; so the
empty slots reported by `printSymbolStats` are at least 256 minus `number_entries`, and the
longest chain reported is at most `number_entries`. -/
theorem C18_count_consistency (fold_case_flag : Int) (ops : List Op) :
    ((SymbolTable.construct fold_case_flag).run ops).number_entries
        = (((SymbolTable.construct fold_case_flag).run ops).total_entries : Int) ∧
      256 - ((SymbolTable.construct fold_case_flag).run ops).number_entries
        ≤ (((SymbolTable.construct fold_case_flag).run ops).printSymbolStats).1.emptySlots ∧
      (((SymbolTable.construct fold_case_flag).run ops).printSymbolStats).1.longestSearchChain
        ≤ ((SymbolTable.construct fold_case_flag).run ops).number_entries := by
  have hcount := count_run (SymbolTable.construct fold_case_flag) ops
    (by rw [total_entries_construct]; rfl)
  generalize (SymbolTable.construct fold_case_flag).run ops = t at hcount
  obtain ⟨h1, -, i, h3⟩ := printSymbolStats_scan t
  refine ⟨hcount, ?_, ?_⟩
  · rw [h1, hcount]
    have h := length_le_countP_add_sum t.slots.toList
    rw [Mathlib.Vector.toList_length] at h
    unfold SymbolTable.total_entries
    omega
  · rw [← h3, hcount]
    have h := length_le_sum_of_mem t.slots.toList _ (Mathlib.Vector.get_mem i t.slots)
    unfold SymbolTable.total_entries
    exact_mod_cast h

/-- C19: for every table (so for every reachable one, with either flag) and every two names
`s` and `n` that are not byte-identical, `getSymbol n` returns after `putSymbol s` the pointer it
would have returned before it (`nullptr` when it would have returned `nullptr`). -/
theorem C19_putSymbol_keeps_other_lookups (t : SymbolTable) (s n : CString) (h : s ≠ n) :
    ((t.putSymbol s).2.getSymbol n).1 = (t.getSymbol n).1 := by
  rw [getSymbol_fst, getSymbol_fst, hash_congr _ t (putSymbol_fold_case t s)]
  by_cases hl : putSymbol_loop s (t.slots.get (t.hash s)) = []
  · rw [putSymbol_slots_new t s ((putSymbol_loop_eq_nil_iff s _).mp hl)]
    split_ifs
    · simp [putSymbol_loop, strcmp_eq_zero_iff, h]
    · rfl
  · rw [putSymbol_old t s hl]

theorem C19_putSymbol_keeps_other_lookups_witness :
    ((((SymbolTable.construct 0).run [.putSymbol (cstr "ab")]).putSymbol (cstr "bC")).2.getSymbol
        (cstr "ab")).1
      = (((SymbolTable.construct 0).run [.putSymbol (cstr "ab")]).getSymbol (cstr "ab")).1 :=
  C19_putSymbol_keeps_other_lookups ((SymbolTable.construct 0).run [.putSymbol (cstr "ab")])
    (cstr "bC") (cstr "ab") (by decide)

/-- C20: in every table reached from construction (with either flag) by `putSymbol`,
`getSymbol` and `clearSymbolTable`, two entries with byte-identical names are one and the same
entry: the same bucket and the same place on its chain. -/
theorem C20_byte_exact_uniqueness (fold_case_flag : Int) (ops : List Op) (i j : Fin 256)
    (p q : Nat)
    (hp : p < (((SymbolTable.construct fold_case_flag).run ops).slots.get i).length)
    (hq : q < (((SymbolTable.construct fold_case_flag).run ops).slots.get j).length)
    (hname : ((((SymbolTable.construct fold_case_flag).run ops).slots.get i)[p]).name
      = ((((SymbolTable.construct fold_case_flag).run ops).slots.get j)[q]).name) :
    i = j ∧ p = q := by
  have hinv := Inv_run _ ops (Inv_construct fold_case_flag)
  generalize (SymbolTable.construct fold_case_flag).run ops = t at hinv hp hq hname
  obtain ⟨hb, hn⟩ := hinv
  have hi := hb i _ (List.getElem_mem hp)
  have hj := hb j _ (List.getElem_mem hq)
  have hij : i = j := by rw [← hi, ← hj, hname]
  subst hij
  refine ⟨rfl, ?_⟩
  have hnd := hn i
  have hp2 : p < ((t.slots.get i).map SymbolTableEntry.name).length := by simpa using hp
  have hq2 : q < ((t.slots.get i).map SymbolTableEntry.name).length := by simpa using hq
  have key : ((t.slots.get i).map SymbolTableEntry.name)[p]
      = ((t.slots.get i).map SymbolTableEntry.name)[q] := by simpa using hname
  exact (List.Nodup.getElem_inj_iff hnd).mp key

theorem C20_byte_exact_uniqueness_witness :
    1 < (((SymbolTable.construct 1).run
          [.putSymbol (cstr "Apple"), .putSymbol (cstr "apple")]).slots.get
            ⟨90, by decide⟩).length ∧
      ((⟨90, by decide⟩ : Fin 256) = ⟨90, by decide⟩ ∧ 1 = 1) :=
  ⟨by decide,
    C20_byte_exact_uniqueness 1 [.putSymbol (cstr "Apple"), .putSymbol (cstr "apple")]
      ⟨90, by decide⟩ ⟨90, by decide⟩ 1 1 (by decide) (by decide) (by decide)⟩

end SymbolTableModel
